import Mathlib

/-!
# AlertEngine — verification of the reconciliation and evaluation pipeline

Shallow embedding of the Go sources of `will-yinchengxin/alertengine`:

* `engine/evaluator.go` — per-rule alert state machine (`updateRuleState`),
  rule conversion on `Manager.Update`, notification retry loop
  (`Manager.sendNotification`);
* `engine/reloader.go` — reconcile loop (`Reloader.Loop`) and the
  diff-and-converge step (`Reloader.Update`);
* `rule/storage.go` — rule-file archive (`SaveRule`, `ListVersions`).

Modelling conventions:

* Go `time.Time` is modelled as an `Int` of nanoseconds since the epoch;
  the Go zero `time.Time{}` is `0`, and `t1.Sub(t2)` is `t1 - t2`.
* Go `float64` sample values are only copied around (never computed with)
  in the verified fragment, so they are modelled by `Int`.
* Go maps rendered to label lists have unspecified iteration order; labels
  are modelled as association lists, and no theorem below depends on their
  order.
* Side effects (metric counters, emitted notifications, filesystem writes)
  are made explicit as returned values.
-/

namespace AlertEngine

/-- Alert state, `engine/evaluator.go`: `StateInactive | StatePending | StateFiring`. -/
inductive RuleState where
  | inactive
  | pending
  | firing
deriving DecidableEq, Repr

/-- Internal evaluation rule, Go struct `EvalRule` (`engine/evaluator.go`).
`forD` is the parsed `For` duration in nanoseconds; `activeAt`/`firedAt`
are timestamps with `0` as the Go zero time; `lastValue` is the last
scalar sample (Go `float64`, modelled as `Int`, see header). -/
structure EvalRule where
  id : String
  promId : Int
  expr : String
  forD : Int
  labels : List (String × String)
  annotations : List (String × String)
  state : RuleState
  activeAt : Int
  firedAt : Int
  lastValue : Int
deriving DecidableEq, Repr

/-- One call of the Go `notifyFunc`: the rule snapshot passed to it and the
state string (`"firing"` or `"resolved"`). -/
abbrev Notification := EvalRule × String

/-- `RuleEvaluator.updateRuleState` (`engine/evaluator.go`, the repeat-firing
variant, lines 159–196; this is the variant wired to the `Manager` in the same
file, whose `queryFunc` returns labels, and the one the spec designates).
Returns the updated rule and the notifications emitted during the step.
The Go guard `if e.notifyFunc != nil` is always true in the program
(`NewManager` wires `m.sendNotification`), so emissions are recorded
unconditionally. -/
def updateRuleState (r0 : EvalRule) (hasValue : Bool) (value : Int) (now : Int) :
    EvalRule × List Notification :=
  let r := { r0 with lastValue := value }
  match r.state with
  | .inactive =>
      if hasValue then ({ r with state := .pending, activeAt := now }, [])
      else (r, [])
  | .pending =>
      if !hasValue then ({ r with state := .inactive, activeAt := 0 }, [])
      else if now - r.activeAt ≥ r.forD then
        let r' := { r with state := .firing, firedAt := now }
        (r', [(r', "firing")])
      else (r, [])
  | .firing =>
      if !hasValue then
        ({ r with state := .inactive, activeAt := 0, firedAt := 0 }, [(r, "resolved")])
      else
        (r, [(r, "firing")])

/-! ## Duration parsing (`time.ParseDuration`)

`Manager.Update` runs `forDuration, _ := time.ParseDuration(r.For)`, so a
parse error yields duration `0`.  The parser below follows Go's
`time.ParseDuration` on `List Char` (one entry per rune): optional sign,
special case `"0"`, then one or more `[0-9]*(\.[0-9]*)?unit` groups.
Not modelled: the int64 overflow checks (all claims use short durations),
and the float64 rounding in the fractional part, which is modelled as the
exact rational product truncated (`f * unit / scale`). -/

/-- Go's digit test `'0' <= c && c <= '9'`. -/
def isGoDigit (c : Char) : Bool := '0' ≤ c && c ≤ '9'

/-- `leadingInt`: consume a leading run of digits, accumulating their value. -/
def leadingInt : Nat → List Char → Nat × List Char
  | x, [] => (x, [])
  | x, c :: s =>
      if isGoDigit c then leadingInt (x * 10 + (c.toNat - 48)) s else (x, c :: s)

/-- `leadingFraction`: consume digits after the decimal point, returning the
accumulated value and the scale `10^digits`. -/
def leadingFraction : Nat → Nat → List Char → Nat × Nat × List Char
  | x, scale, [] => (x, scale, [])
  | x, scale, c :: s =>
      if isGoDigit c then leadingFraction (x * 10 + (c.toNat - 48)) (scale * 10) s
      else (x, scale, c :: s)

/-- The `unitMap` of `time.ParseDuration` (values in nanoseconds). -/
def unitValue : List Char → Option Nat
  | ['n', 's'] => some 1
  | ['u', 's'] => some 1000
  | ['µ', 's'] => some 1000
  | ['μ', 's'] => some 1000
  | ['m', 's'] => some 1000000
  | ['s'] => some 1000000000
  | ['m'] => some 60000000000
  | ['h'] => some 3600000000000
  | _ => none

/-- A character that ends a unit token: a digit or a decimal point. -/
def endsUnit (c : Char) : Bool := c = '.' || isGoDigit c

/-- The main loop of `time.ParseDuration`, with explicit fuel (each
iteration consumes at least one character, so `length + 1` fuel suffices). -/
def parseDurLoop : Nat → Nat → List Char → Option Nat
  | 0, _, _ => none
  | _ + 1, acc, [] => some acc
  | fuel + 1, acc, c :: rest =>
      if ¬ (c = '.' ∨ isGoDigit c = true) then none
      else
        let s := c :: rest
        let iv := leadingInt 0 s
        let pre : Bool := iv.2.length ≠ s.length
        let fr :=
          match iv.2 with
          | '.' :: t =>
              let q := leadingFraction 0 1 t
              (q.1, q.2.1, q.2.2, decide (q.2.2.length ≠ t.length))
          | other => (0, 1, other, false)
        if pre = false ∧ fr.2.2.2 = false then none
        else
          let u := fr.2.2.1.takeWhile (fun d => ¬ endsUnit d)
          let s3 := fr.2.2.1.drop u.length
          if u = [] then none
          else
            match unitValue u with
            | none => none
            | some unit =>
                parseDurLoop fuel (acc + (iv.1 * unit + fr.1 * unit / fr.2.1)) s3

/-- `time.ParseDuration`: `none` models Go's error return (in which case the
caller `Manager.Update` keeps the zero duration). -/
def parseDuration (s0 : List Char) : Option Int :=
  let signed : Bool × List Char :=
    match s0 with
    | '-' :: t => (true, t)
    | '+' :: t => (false, t)
    | t => (false, t)
  if signed.2 = ['0'] then some 0
  else if signed.2 = [] then none
  else
    match parseDurLoop (signed.2.length + 1) 0 signed.2 with
    | none => none
    | some d => some (if signed.1 then -(d : Int) else (d : Int))

/-- `forDuration, _ := time.ParseDuration(r.For)` — Go returns duration `0`
together with the error, so an unparseable string yields `0`. -/
def goParsedDuration (s : String) : Int := (parseDuration s.toList).getD 0

/-! ## Rules and `Manager.Update` -/

/-- Authoritative rule from the gateway, Go struct `rule.Rule`
(`rule/types.go`).  `forStr` is the Go field `For` (a duration string);
`labels` is the Go `map[string]string` as an association list. -/
structure Rule where
  id : Int
  promId : Int
  expr : String
  op : String
  value : String
  forStr : String
  labels : List (String × String)
  summary : String
  description : String
deriving DecidableEq, Repr

/-- The per-rule conversion inside `Manager.Update` (`engine/evaluator.go`
lines 342–364): decimal id, `TrimSpace(expr ⌴ op ⌴ value)`, parsed `For`
(0 on error), fresh `StateInactive` with zero timestamps and zero
`lastValue` (Go zero values of the omitted struct fields). -/
def toEvalRule (r : Rule) : EvalRule where
  id := toString r.id
  promId := r.promId
  expr := (r.expr ++ " " ++ r.op ++ " " ++ r.value).trim
  forD := goParsedDuration r.forStr
  labels := r.labels
  annotations :=
    [("rule_id", toString r.id), ("prom_id", toString r.promId),
     ("summary", r.summary), ("description", r.description)]
  state := .inactive
  activeAt := 0
  firedAt := 0
  lastValue := 0

/-- `Manager.Update` rule rebuild (`engine/evaluator.go` lines 342–366):
the evaluator's rule list is replaced wholesale by `rules.map toEvalRule`
via `m.evaluator.UpdateRules(evalRules)`.  The parameter `prior` is the
evaluator's previous rule list; the definition records that the source
never consults it (there is no merge by rule id in `Manager.Update`). -/
def managerUpdateRules (_prior : List EvalRule) (rules : List Rule) : List EvalRule :=
  rules.map toEvalRule

/-! ## Reconciler (`Reloader.Update`, `Reloader.Loop` — `engine/reloader.go`) -/

/-- Metrics source, Go struct `rule.Prom` (`rule/types.go`). -/
structure Prom where
  id : Int
  url : String
deriving DecidableEq, Repr

/-- One incoming group, Go struct `rule.PromRules`. -/
structure PromRules where
  prom : Prom
  rules : List Rule
deriving DecidableEq, Repr

/-- The keep test of the delete sweep in `Reloader.Update`: the Go loop sets
`shouldDelete := true` and clears it when some group satisfies
`manager.prom.ID == pr.Prom.ID && manager.prom.URL == pr.Prom.URL &&
pr.Prom.URL != ""`. -/
def managerKept (m : Prom) (promRules : List PromRules) : Bool :=
  promRules.any (fun pr => m.id == pr.prom.id && m.url == pr.prom.url && pr.prom.url != "")

/-- The delete sweep of `Reloader.Update`: every manager failing
`managerKept` is stopped and deleted from the map.  The Go
`map[int64]*Manager` is modelled as an association list of
`(key, manager.prom)` pairs (only the prom identity of a manager matters
to the map diff). -/
def sweepManagers (mgrs : List (Int × Prom)) (promRules : List PromRules) :
    List (Int × Prom) :=
  mgrs.filter (fun e => managerKept e.2 promRules)

/-- The create/update pass of `Reloader.Update`: groups with an empty URL
are skipped with a warning; for the rest, a missing manager is constructed
(`NewManager`, whose possible failure is modelled by `ctorOk`; on failure
the group is skipped), started and installed under key `pr.Prom.ID`; then
`manager.Update(pr.Rules)` runs, which does not change the map. -/
def installManagers (ctorOk : Prom → Bool) :
    List (Int × Prom) → List PromRules → List (Int × Prom)
  | mgrs, [] => mgrs
  | mgrs, pr :: rest =>
      if pr.prom.url = "" then installManagers ctorOk mgrs rest
      else
        match mgrs.lookup pr.prom.id with
        | some _ => installManagers ctorOk mgrs rest
        | none =>
            if ctorOk pr.prom then
              installManagers ctorOk (mgrs ++ [(pr.prom.id, pr.prom)]) rest
            else installManagers ctorOk mgrs rest

/-- `Reloader.Update` map convergence (`engine/reloader.go` lines 111–196):
the delete sweep runs first, then the create/update pass. -/
def reloaderUpdate (ctorOk : Prom → Bool) (mgrs : List (Int × Prom))
    (promRules : List PromRules) : List (Int × Prom) :=
  installManagers ctorOk (sweepManagers mgrs promRules) promRules

/-- Counter state observed by `Reloader.Loop`. -/
structure LoopTrace where
  updateCalls : Nat
  reloadSuccess : Nat
  reloadErrors : Nat
deriving DecidableEq, Repr

/-- `Reloader.Loop` (`engine/reloader.go` lines 86–108): one immediate
`Update()` whose error is only logged (`initialOk` is its result, consulted
by no counter), then one `Update()` per timer tick until cancellation, each
incrementing `ReloadErrors` on failure and `ReloadSuccess` on success.
`ticks` lists the results of the tick-driven updates that run before the
loop is cancelled. -/
def reloaderLoop (_initialOk : Bool) (ticks : List Bool) : LoopTrace :=
  let base : LoopTrace := { updateCalls := 1, reloadSuccess := 0, reloadErrors := 0 }
  ticks.foldl
    (fun t ok =>
      if ok then
        { t with updateCalls := t.updateCalls + 1, reloadSuccess := t.reloadSuccess + 1 }
      else
        { t with updateCalls := t.updateCalls + 1, reloadErrors := t.reloadErrors + 1 })
    base

/-! ## Notifier (`Manager.sendNotification` — `engine/evaluator.go` lines 451–485) -/

/-- Outcome of one HTTP POST attempt: a transport error (`client.Do`
returned an error) or a response with the given status code. -/
inductive AttemptResult where
  | transportError
  | status (code : Int)
deriving DecidableEq, Repr

/-- Effect of one `sendNotification` call on the counters, plus the number
of POST attempts it made. -/
structure NotifyMetrics where
  sent : Nat
  errors : Nat
  attempts : Nat
deriving DecidableEq, Repr

/-- The retry loop body of `Manager.sendNotification`:
`for i := 1; i <= m.config.NotifyRetries; i++`.  `respond i` is the outcome
of the i-th attempt; `n` counts the remaining attempts.  Status 200 copies
and closes the body, increments `NotificationsSent` and returns; a
transport error or any other status increments `NotifyErrors` and
continues.  (The `json.Marshal` guard before the loop cannot fail on the
`Alert` struct — plain strings and string maps — and is not modelled.) -/
def notifyFrom (respond : Nat → AttemptResult) : Nat → Nat → NotifyMetrics
  | _, 0 => ⟨0, 0, 0⟩
  | i, n + 1 =>
      if respond i = AttemptResult.status 200 then ⟨1, 0, 1⟩
      else
        let m := notifyFrom respond (i + 1) n
        ⟨m.sent, m.errors + 1, m.attempts + 1⟩

/-- One `Manager.sendNotification` call with `notify_retries = retries`. -/
def sendNotification (retries : Nat) (respond : Nat → AttemptResult) : NotifyMetrics :=
  notifyFrom respond 1 retries

/-- Index of the first attempt in `i, i+1, …` (at most `n` attempts) whose
response is HTTP 200. -/
def firstSuccessFrom (respond : Nat → AttemptResult) : Nat → Nat → Option Nat
  | _, 0 => none
  | i, n + 1 =>
      if respond i = AttemptResult.status 200 then some i
      else firstSuccessFrom respond (i + 1) n

/-! ## Rule archive (`rule/storage.go`)

Paths are modelled as `List Char` (one entry per byte of the Go string;
all path constituents here are ASCII).  `filepath.Join` is modelled as
"/"-intercalation, which coincides with Go for cleaned, non-empty base
directories. -/

/-- `filepath.Join` on already-clean components. -/
def pathJoin : List (List Char) → List Char
  | [] => []
  | [p] => p
  | p :: rest => p ++ '/' :: pathJoin rest

/-- The `prom_{id}` directory component (`fmt.Sprintf("prom_%d", promID)`). -/
def promDirName (promID : Int) : List Char :=
  "prom_".toList ++ (toString promID).toList

/-- `Storage.getCurrentPath`: `{base}/prom_{id}/current.yml`. -/
def getCurrentPath (base : List Char) (promID : Int) : List Char :=
  pathJoin [base, promDirName promID, "current.yml".toList]

/-- `Storage.getHistoryPath`: `{base}/prom_{id}/history/rule_{ts}.yml`. -/
def getHistoryPath (base : List Char) (promID : Int) (ts : List Char) : List Char :=
  pathJoin [base, promDirName promID, "history".toList,
    "rule_".toList ++ ts ++ ".yml".toList]

/-- `Storage.getPromHistoryDir`: `{base}/prom_{id}/history`. -/
def getPromHistoryDir (base : List Char) (promID : Int) : List Char :=
  pathJoin [base, promDirName promID, "history".toList]

/-- The target path chosen by `Storage.SaveRule`: the history path when
history is enabled, the current path otherwise. -/
def saveRulePath (enableHistory : Bool) (base : List Char) (promID : Int)
    (ts : List Char) : List Char :=
  if enableHistory then getHistoryPath base promID ts else getCurrentPath base promID

/-- The directory argument `SaveRule` passes to `os.MkdirAll`, embedded
literally from the Go expression
`filepath[:len(filepath)-len(filepath[len(filepath)-1:])]`
(the slice `filepath[len(filepath)-1:]` is the final byte, of length 1, so
this is the path with its last byte removed). -/
def saveRuleMkdirArg (p : List Char) : List Char :=
  p.take (p.length - (p.drop (p.length - 1)).length)

/-- The directory part of a path as the OS resolves a file write: everything
before the final `'/'`. -/
def dirname (p : List Char) : List Char :=
  ((p.reverse.dropWhile (fun c => c ≠ '/')).drop 1).reverse

/-- After `os.MkdirAll(d, 0755)` succeeds, directory `q` exists whenever
`q` is `d` itself or a slash-ancestor of `d` (clean paths). -/
def mkdirAllCreates (d q : List Char) : Bool :=
  q == d || (q ++ ['/']).isPrefixOf d

/-- `os.WriteFile(p, …)` succeeds iff the directory containing `p` exists;
`existsDir` is the directory-existence predicate of the filesystem state. -/
def writeFileOk (existsDir : List Char → Bool) (p : List Char) : Bool :=
  existsDir (dirname p)

/-- One directory entry as returned by `ioutil.ReadDir` of the history
directory: name, modification time, directory flag, and the bytes
`os.ReadFile` would return (`none` models a read error). -/
structure DirEntry where
  name : List Char
  modTime : Int
  isDir : Bool
  content : Option (List Nat)
deriving DecidableEq, Repr

/-- Result of `ioutil.ReadDir` on the history directory. -/
inductive ReadDirResult where
  | entries (es : List DirEntry)
  | notExist
  | otherError
deriving DecidableEq, Repr

/-- Archive record, Go struct `rule.RuleVersion` (`rule/types.go`).  The
hash is whatever the hash function of the model returns (`Storage`
computes a SHA-256 hex digest of the file bytes; no claim depends on its
value, so it stays abstract). -/
structure RuleVersion where
  version : Int
  promId : Int
  createdAt : Int
  filePath : List Char
  hash : List Char
deriving DecidableEq, Repr

/-- The sort in `ListVersions`: `sort.Slice` with
`files[i].ModTime().After(files[j].ModTime())`, i.e. descending
modification time.  (`sort.Slice` is unstable, so the order among equal
timestamps is unspecified in Go; the model fixes a merge sort, and no
theorem below depends on the tie order.) -/
def sortEntries (es : List DirEntry) : List DirEntry :=
  es.mergeSort (fun a b => b.modTime ≤ a.modTime)

/-- The collection loop of `ListVersions` over the sorted entries, with `i`
the running index: `if i >= limit && limit > 0 { break }`, directories are
skipped, unreadable files (`os.ReadFile` error) are skipped, and each kept
entry yields a record with `Version: int64(i + 1)`. -/
def lvLoop (hashFn : List Nat → List Char) (promId : Int) (historyDir : List Char)
    (limit : Int) : Nat → List DirEntry → List RuleVersion
  | _, [] => []
  | i, e :: rest =>
      if (i : Int) ≥ limit ∧ limit > 0 then []
      else if e.isDir then lvLoop hashFn promId historyDir limit (i + 1) rest
      else
        match e.content with
        | none => lvLoop hashFn promId historyDir limit (i + 1) rest
        | some bytes =>
            { version := (i : Int) + 1, promId := promId, createdAt := e.modTime,
              filePath := pathJoin [historyDir, e.name], hash := hashFn bytes }
              :: lvLoop hashFn promId historyDir limit (i + 1) rest

/-- `Storage.ListVersions` (`rule/storage.go` lines 71–114).  `hashFn`
abstracts `calculateHash`; `dir` is what `ioutil.ReadDir` observes for
`{base}/prom_{id}/history`. -/
def listVersions (hashFn : List Nat → List Char) (enableHistory : Bool)
    (base : List Char) (promId : Int) (dir : ReadDirResult) (limit : Int) :
    Except String (List RuleVersion) :=
  if !enableHistory then .error "history is disabled"
  else
    match dir with
    | .notExist => .ok []
    | .otherError => .error "failed to read history directory"
    | .entries es =>
        .ok (lvLoop hashFn promId (getPromHistoryDir base promId) limit 0 (sortEntries es))

/-- Entry filter of the specification-side description of `ListVersions`:
an entry at sorted index `i` produces a record iff the scan has not been
truncated (`limit ≤ 0` or `i < limit`), it is not a directory, and its
bytes are readable. -/
def lvKeep (limit : Int) (i : Nat) (e : DirEntry) : Bool :=
  (decide (limit ≤ 0) || decide ((i : Int) < limit)) && !e.isDir && e.content.isSome

/-- The record built for the entry at sorted index `i`. -/
def lvRecord (hashFn : List Nat → List Char) (promId : Int) (historyDir : List Char)
    (i : Nat) (e : DirEntry) : RuleVersion :=
  { version := (i : Int) + 1, promId := promId, createdAt := e.modTime,
    filePath := pathJoin [historyDir, e.name], hash := hashFn (e.content.getD []) }

/-- Specification-side description of the `ListVersions` collection loop:
records for exactly the kept entries of the sorted listing, each carrying
one plus its sorted index as its version. -/
def lvSpec (hashFn : List Nat → List Char) (promId : Int) (historyDir : List Char)
    (limit : Int) (sorted : List DirEntry) : List RuleVersion :=
  ((sorted.enumFrom 0).filter (fun p => lvKeep limit p.1 p.2)).map
    (fun p => lvRecord hashFn promId historyDir p.1 p.2)

/-! ## State invariants (spec §3) and concrete fixtures -/

/-- The state/timestamp invariant of spec §3 minus its per-step time clause:
Inactive ⇒ both timestamps zero; Pending ⇒ `active_at` non-zero and
`fired_at` zero; Firing ⇒ both non-zero and `fired_at − active_at ≥ for`. -/
@[reducible]
def invBase (r : EvalRule) : Prop :=
  (r.state = .inactive → r.activeAt = 0 ∧ r.firedAt = 0) ∧
  (r.state = .pending → r.activeAt ≠ 0 ∧ r.firedAt = 0) ∧
  (r.state = .firing → r.activeAt ≠ 0 ∧ r.firedAt ≠ 0 ∧ r.forD ≤ r.firedAt - r.activeAt)

/-- A concrete gateway rule whose `for` string is empty. -/
def demoRule : Rule :=
  { id := 1, promId := 1, expr := "up", op := ">", value := "0", forStr := "",
    labels := [], summary := "", description := "" }

/-- A concrete prior evaluator rule for gateway rule 1, observed in `Firing`
with non-trivial timestamps and last value. -/
def demoPriorRule : EvalRule :=
  { id := "1", promId := 1, expr := "up > 0", forD := 0, labels := [],
    annotations := [], state := .firing, activeAt := 5, firedAt := 10,
    lastValue := 3 }

/-- The fresh evaluation rule `Manager.Update` builds from `demoRule`. -/
def demoFreshRule : EvalRule := toEvalRule demoRule

/-- A concrete history listing: a subdirectory with the newest modification
time followed by a readable rule file. -/
def demoEntries : List DirEntry :=
  [{ name := "sub".toList, modTime := 10, isDir := true, content := none },
   { name := "a.yml".toList, modTime := 5, isDir := false, content := some [1] }]

/-- Hash function used in the concrete storage examples. -/
def demoHash : List Nat → List Char := fun _ => []

/-- Concrete reconciler fixtures: one live manager for source 1 and one
incoming group for source 2. -/
def demoProm1 : Prom := { id := 1, url := "http://a" }

/-- The incoming group's source. -/
def demoProm2 : Prom := { id := 2, url := "http://b" }

/-- Incoming group for `demoProm2` with no rules. -/
def demoGroup2 : PromRules := { prom := demoProm2, rules := [] }

/-- A constructor oracle under which every `NewManager` call succeeds. -/
def demoCtorOk : Prom → Bool := fun _ => true

/-- What `Storage.SaveRule` does to the filesystem before its write, for a
target path split as `parent ++ "/" ++ fname`: the `os.MkdirAll` argument is
the target path minus its final character — a spurious directory
`parent ++ "/" ++ fname.dropLast` distinct from both the parent and the
target file — creating the true parent only as a slash-prefix of that
spurious path, after which the `os.WriteFile` of the target succeeds. -/
def saveRuleMkdirClaim (hist : Bool) (base ts : List Char) (promID : Int) : Prop :=
  ∃ parent fname : List Char,
    saveRulePath hist base promID ts = parent ++ '/' :: fname ∧
    fname ≠ [] ∧
    saveRuleMkdirArg (saveRulePath hist base promID ts) =
      (saveRulePath hist base promID ts).dropLast ∧
    saveRuleMkdirArg (saveRulePath hist base promID ts) =
      parent ++ '/' :: fname.dropLast ∧
    dirname (saveRulePath hist base promID ts) = parent ∧
    saveRuleMkdirArg (saveRulePath hist base promID ts) ≠ parent ∧
    saveRuleMkdirArg (saveRulePath hist base promID ts) ≠ saveRulePath hist base promID ts ∧
    mkdirAllCreates (saveRuleMkdirArg (saveRulePath hist base promID ts))
      (saveRuleMkdirArg (saveRulePath hist base promID ts)) = true ∧
    mkdirAllCreates (saveRuleMkdirArg (saveRulePath hist base promID ts)) parent = true ∧
    writeFileOk (mkdirAllCreates (saveRuleMkdirArg (saveRulePath hist base promID ts)))
      (saveRulePath hist base promID ts) = true

/-! ## Step lemmas for the state machine -/

/-- An inactive rule with a present sample enters Pending at `now`. -/
theorem inactive_step_pending (r : EvalRule) (v now : Int) (hst : r.state = .inactive) :
    updateRuleState r true v now =
      ({ r with lastValue := v, state := .pending, activeAt := now }, []) := by
  simp [updateRuleState, hst]

/-- An inactive rule with no sample only records the value. -/
theorem inactive_step_stay (r : EvalRule) (v now : Int) (hst : r.state = .inactive) :
    updateRuleState r false v now = ({ r with lastValue := v }, []) := by
  simp [updateRuleState, hst]

/-- A pending rule with no sample falls back to Inactive. -/
theorem pending_step_reset (r : EvalRule) (v now : Int) (hst : r.state = .pending) :
    updateRuleState r false v now =
      ({ r with lastValue := v, state := .inactive, activeAt := 0 }, []) := by
  simp [updateRuleState, hst]

/-- A pending rule whose `for` window has elapsed fires and notifies. -/
theorem pending_step_fires (r : EvalRule) (v now : Int) (hst : r.state = .pending)
    (hc : now - r.activeAt ≥ r.forD) :
    updateRuleState r true v now =
      ({ r with lastValue := v, state := .firing, firedAt := now },
       [({ r with lastValue := v, state := .firing, firedAt := now }, "firing")]) := by
  simp [updateRuleState, hst, hc]

/-- A pending rule still inside its `for` window stays Pending silently. -/
theorem pending_step_wait (r : EvalRule) (v now : Int) (hst : r.state = .pending)
    (hc : ¬ now - r.activeAt ≥ r.forD) :
    updateRuleState r true v now = ({ r with lastValue := v }, []) := by
  simp [updateRuleState, hst, hc]

/-- A firing rule with no sample resolves: it notifies with its pre-reset
timestamps, then clears state and timestamps. -/
theorem firing_step_resolve (r : EvalRule) (v now : Int) (hst : r.state = .firing) :
    updateRuleState r false v now =
      ({ r with lastValue := v, state := .inactive, activeAt := 0, firedAt := 0 },
       [({ r with lastValue := v }, "resolved")]) := by
  simp [updateRuleState, hst]

/-- A firing rule with a present sample stays Firing and notifies again. -/
theorem firing_step_stay (r : EvalRule) (v now : Int) (hst : r.state = .firing) :
    updateRuleState r true v now =
      ({ r with lastValue := v }, [({ r with lastValue := v }, "firing")]) := by
  simp [updateRuleState, hst]

/-! ## C2 — repeat notification while Firing -/

/-- C2: on any evaluation step of a rule in state `Firing` whose query
result is present, the state stays `Firing` and a `"firing"` notification
is emitted on that very step — a repeat notification on every Firing tick,
not only on the Pending→Firing transition (`engine/evaluator.go`
lines 181–195, the repeat-firing evaluator variant the spec designates). -/
theorem firing_present_repeats_notification (r : EvalRule) (v now : Int)
    (h : r.state = .firing) :
    (updateRuleState r true v now).1.state = .firing ∧
    (updateRuleState r true v now).2.map Prod.snd = ["firing"] := by
  rw [firing_step_stay r v now h]
  exact ⟨h, rfl⟩

/-- Witness for C2 at a concrete firing rule. -/
theorem firing_present_repeats_notification_witness :
    demoPriorRule.state = .firing ∧
    ((updateRuleState demoPriorRule true 7 20).1.state = .firing ∧
     (updateRuleState demoPriorRule true 7 20).2.map Prod.snd = ["firing"]) :=
  ⟨by decide, firing_present_repeats_notification demoPriorRule 7 20 (by decide)⟩

/-! ## C1 — no state merge across `Manager.Update` -/

/-- C1 counterexample: the prior evaluator holds rule id `"1"` in `Firing`
with timestamps 5/10 and last value 3, and the incoming ruleset contains
the same rule id; after `Manager.Update` the rule is `Inactive` with zero
timestamps and zero last value — nothing is carried over, refuting
"keeps its prior state, active_at, fired_at and last_value". -/
theorem managerUpdate_resets_state_counterexample :
    (managerUpdateRules [demoPriorRule] [demoRule]).map
        (fun r => (r.id, r.state, r.activeAt, r.firedAt, r.lastValue))
      = [("1", RuleState.inactive, (0 : Int), (0 : Int), (0 : Int))] ∧
    demoPriorRule.id = "1" ∧ demoPriorRule.state = .firing ∧
    demoPriorRule.activeAt = 5 ∧ demoPriorRule.firedAt = 10 ∧
    demoPriorRule.lastValue = 3 := by
  decide

/-- C1 amended: `Manager.Update` rebuilds every rule from scratch — the
result never depends on the prior evaluator rules, and every rebuilt rule
starts `Inactive` with zero `active_at`, `fired_at` and `last_value`,
whether or not its id was present before. -/
theorem managerUpdate_starts_fresh (prior prior' : List EvalRule) (rules : List Rule) :
    managerUpdateRules prior rules = managerUpdateRules prior' rules ∧
    ∀ r ∈ managerUpdateRules prior rules,
      r.state = .inactive ∧ r.activeAt = 0 ∧ r.firedAt = 0 ∧ r.lastValue = 0 := by
  refine ⟨rfl, ?_⟩
  intro r hr
  simp only [managerUpdateRules, List.mem_map] at hr
  obtain ⟨a, -, rfl⟩ := hr
  exact ⟨rfl, rfl, rfl, rfl⟩

/-- Witness for the amended C1 at a concrete ruleset. -/
theorem managerUpdate_starts_fresh_witness :
    toEvalRule demoRule ∈ managerUpdateRules [demoPriorRule] [demoRule] ∧
    ((toEvalRule demoRule).state = .inactive ∧ (toEvalRule demoRule).activeAt = 0 ∧
     (toEvalRule demoRule).firedAt = 0 ∧ (toEvalRule demoRule).lastValue = 0) :=
  ⟨by simp [managerUpdateRules],
   (managerUpdate_starts_fresh [demoPriorRule] [demoPriorRule] [demoRule]).2
     (toEvalRule demoRule) (by simp [managerUpdateRules])⟩

/-! ## C5 — zero `for` duration and the first present tick -/

/-- C5 counterexample: `for=""` parses to duration 0, yet on the first
present tick from `Inactive` the rule only moves to `Pending` and emits no
notification — the switch statement takes a single transition per tick, so
`Firing` is reached only on the second consecutive present tick.  This
refutes "fires on the first tick on which the query result is present". -/
theorem emptyFor_first_tick_counterexample :
    goParsedDuration "" = 0 ∧
    demoFreshRule.forD = 0 ∧
    demoFreshRule.state = .inactive ∧
    (updateRuleState demoFreshRule true 5 1).1.state = .pending ∧
    (updateRuleState demoFreshRule true 5 1).2 = [] := by
  decide

/-- C5 amended: a rule whose `for` string fails `time.ParseDuration`
(the empty string does) gets duration 0 and, starting from the freshly
built `Inactive` rule, moves to `Pending` on the first present tick with
no notification, then reaches `Firing` and emits `"firing"` on the second
consecutive present tick. -/
theorem emptyFor_fires_second_present_tick (ru : Rule)
    (hpar : parseDuration ru.forStr.toList = none) (v₁ v₂ now₁ now₂ : Int)
    (hle : now₁ ≤ now₂) :
    (toEvalRule ru).forD = 0 ∧
    (updateRuleState (toEvalRule ru) true v₁ now₁).1.state = .pending ∧
    (updateRuleState (toEvalRule ru) true v₁ now₁).2 = [] ∧
    (updateRuleState (updateRuleState (toEvalRule ru) true v₁ now₁).1 true v₂ now₂).1.state
      = .firing ∧
    (updateRuleState (updateRuleState (toEvalRule ru) true v₁ now₁).1 true v₂ now₂).2.map
        Prod.snd = ["firing"] := by
  have hford : (toEvalRule ru).forD = 0 := by
    simp only [String.toList] at hpar
    simp [toEvalRule, goParsedDuration, hpar]
  have h1 : updateRuleState (toEvalRule ru) true v₁ now₁ =
      ({ toEvalRule ru with lastValue := v₁, state := .pending, activeAt := now₁ }, []) :=
    inactive_step_pending (toEvalRule ru) v₁ now₁ rfl
  rw [h1]
  have h2 := pending_step_fires
    ({ toEvalRule ru with lastValue := v₁, state := .pending, activeAt := now₁ }) v₂ now₂
    rfl (by simpa [hford] using sub_nonneg.mpr hle)
  refine ⟨hford, rfl, rfl, by simp [h2], by simp [h2]⟩

/-- Witness for the amended C5: `for=""` at ticks 1 and 2. -/
theorem emptyFor_fires_second_present_tick_witness :
    parseDuration "".toList = none ∧ (1 : Int) ≤ 2 ∧
    ((toEvalRule demoRule).forD = 0 ∧
     (updateRuleState (toEvalRule demoRule) true 5 1).1.state = .pending ∧
     (updateRuleState (toEvalRule demoRule) true 5 1).2 = [] ∧
     (updateRuleState (updateRuleState (toEvalRule demoRule) true 5 1).1 true 5 2).1.state
       = .firing ∧
     (updateRuleState (updateRuleState (toEvalRule demoRule) true 5 1).1 true 5 2).2.map
         Prod.snd = ["firing"]) :=
  ⟨by decide, by decide,
   emptyFor_fires_second_present_tick demoRule (by decide) 5 5 1 2 (by decide)⟩

/-! ## C4 — the state/timestamp invariant -/

/-- C4 counterexample: the freshly built rule with `for` duration 0
satisfies the §3 invariant, yet one present tick at `now = 1` leaves it
`Pending` with `now − active_at = 0`, and `0 < for_duration = 0` fails — so
"state = Pending ⇒ now − active_at < for_duration" does not hold after
that tick-step. -/
theorem pending_window_counterexample :
    invBase demoFreshRule ∧
    (1 : Int) ≠ 0 ∧
    (updateRuleState demoFreshRule true 5 1).1.state = .pending ∧
    ¬ (1 - (updateRuleState demoFreshRule true 5 1).1.activeAt
         < (updateRuleState demoFreshRule true 5 1).1.forD) := by
  decide

/-- C4 amended: every evaluation step at a non-zero wall-clock time
preserves the §3 invariant, with the Pending time clause weakened to
"`now − active_at < for_duration` **or** the rule entered Pending at this
very step (`active_at = now`)" — the disjunct is forced exactly when
`for_duration = 0`; and every rule built by `Manager.Update` is a fresh
`Inactive` rule satisfying the invariant. -/
theorem state_invariant_preserved :
    (∀ (r : EvalRule) (hasValue : Bool) (v now : Int), invBase r → now ≠ 0 →
      invBase (updateRuleState r hasValue v now).1 ∧
      ((updateRuleState r hasValue v now).1.state = .pending →
        now - (updateRuleState r hasValue v now).1.activeAt
            < (updateRuleState r hasValue v now).1.forD ∨
          (updateRuleState r hasValue v now).1.activeAt = now)) ∧
    (∀ (prior : List EvalRule) (rules : List Rule) (r : EvalRule),
      r ∈ managerUpdateRules prior rules → invBase r ∧ r.state = .inactive) := by
  constructor
  · intro r hasValue v now hinv hnow
    obtain ⟨hin, hpen, hfir⟩ := hinv
    cases hst : r.state with
    | inactive =>
        obtain ⟨ha, hf⟩ := hin hst
        cases hasValue with
        | true =>
            rw [inactive_step_pending r v now hst]
            refine ⟨⟨?_, ?_, ?_⟩, ?_⟩ <;> simp [hnow, hf]
        | false =>
            rw [inactive_step_stay r v now hst]
            refine ⟨⟨?_, ?_, ?_⟩, ?_⟩ <;> simp [hst, ha, hf]
    | pending =>
        obtain ⟨ha, hf⟩ := hpen hst
        cases hasValue with
        | true =>
            by_cases hc : now - r.activeAt ≥ r.forD
            · rw [pending_step_fires r v now hst hc]
              refine ⟨⟨?_, ?_, ?_⟩, ?_⟩ <;> simp [ha, hnow]
              omega
            · rw [pending_step_wait r v now hst hc]
              refine ⟨⟨?_, ?_, ?_⟩, ?_⟩ <;> simp [hst, ha, hf]
              omega
        | false =>
            rw [pending_step_reset r v now hst]
            refine ⟨⟨?_, ?_, ?_⟩, ?_⟩ <;> simp [hf]
    | firing =>
        obtain ⟨ha, hf, hd⟩ := hfir hst
        cases hasValue with
        | true =>
            rw [firing_step_stay r v now hst]
            refine ⟨⟨?_, ?_, ?_⟩, ?_⟩ <;> simp [hst, ha, hf, hd]
        | false =>
            rw [firing_step_resolve r v now hst]
            refine ⟨⟨?_, ?_, ?_⟩, ?_⟩ <;> simp
  · intro prior rules r hr
    simp only [managerUpdateRules, List.mem_map] at hr
    obtain ⟨a, -, rfl⟩ := hr
    exact ⟨⟨fun _ => ⟨rfl, rfl⟩, by simp [toEvalRule], by simp [toEvalRule]⟩, rfl⟩

/-- Witness for the amended C4: a concrete firing rule stepped at `now = 20`,
and a concrete `Manager.Update` output rule. -/
theorem state_invariant_preserved_witness :
    (invBase demoPriorRule ∧ (20 : Int) ≠ 0 ∧
      (invBase (updateRuleState demoPriorRule true 7 20).1 ∧
        ((updateRuleState demoPriorRule true 7 20).1.state = .pending →
          20 - (updateRuleState demoPriorRule true 7 20).1.activeAt
              < (updateRuleState demoPriorRule true 7 20).1.forD ∨
            (updateRuleState demoPriorRule true 7 20).1.activeAt = 20))) ∧
    (toEvalRule demoRule ∈ managerUpdateRules [] [demoRule] ∧
      (invBase (toEvalRule demoRule) ∧ (toEvalRule demoRule).state = .inactive)) :=
  ⟨⟨by decide, by decide,
    state_invariant_preserved.1 demoPriorRule true 7 20 (by decide) (by decide)⟩,
   ⟨by simp [managerUpdateRules],
    state_invariant_preserved.2 [] [demoRule] (toEvalRule demoRule)
      (by simp [managerUpdateRules])⟩⟩

/-! ## C3 — reconciler convergence -/

/-- A lookup hit names an actual binding of the association list. -/
theorem mem_of_lookup_eq_some :
    ∀ {mgrs : List (Int × Prom)} {k : Int} {p : Prom},
      mgrs.lookup k = some p → (k, p) ∈ mgrs := by
  intro mgrs
  induction mgrs with
  | nil => intro k p h; simp [List.lookup] at h
  | cons e rest ih =>
      intro k p h
      rw [List.lookup] at h
      split at h
      · rename_i heq
        have hk : k = e.1 := by simpa using heq
        have hp : e.2 = p := by injection h
        subst hk
        subst hp
        exact List.mem_cons_self _ _
      · exact List.mem_cons_of_mem _ (ih h)

/-- A lookup miss means no binding for that key exists. -/
theorem not_mem_of_lookup_eq_none :
    ∀ {mgrs : List (Int × Prom)} {k : Int},
      mgrs.lookup k = none → ∀ p : Prom, (k, p) ∉ mgrs := by
  intro mgrs
  induction mgrs with
  | nil => intro k _ p h; simp at h
  | cons e rest ih =>
      intro k h p hmem
      rw [List.lookup] at h
      split at h
      · exact Option.noConfusion h
      · rename_i heq
        rcases List.mem_cons.mp hmem with hhd | htl
        · have hk : k = e.1 := congrArg Prod.fst hhd
          rw [hk] at heq
          simp at heq
        · exact ih h p htl

/-- Key membership after the create/update pass: a key is bound afterwards
iff it was bound before or some incoming group with a non-empty URL carries
it (given that every needed construction succeeds). -/
theorem installManagers_hasKey (ctorOk : Prom → Bool) :
    ∀ (prs : List PromRules) (mgrs : List (Int × Prom)),
      (∀ pr ∈ prs, ctorOk pr.prom = true) →
      ∀ k : Int,
        (∃ p, (k, p) ∈ installManagers ctorOk mgrs prs) ↔
          (∃ p, (k, p) ∈ mgrs) ∨ ∃ pr ∈ prs, pr.prom.id = k ∧ pr.prom.url ≠ "" := by
  intro prs
  induction prs with
  | nil => intro mgrs _ k; simp [installManagers]
  | cons pr rest ih =>
      intro mgrs hctor k
      have hctor' : ∀ q ∈ rest, ctorOk q.prom = true :=
        fun q hq => hctor q (List.mem_cons_of_mem _ hq)
      by_cases hurl : pr.prom.url = ""
      · rw [show installManagers ctorOk mgrs (pr :: rest)
              = installManagers ctorOk mgrs rest by
            simp [installManagers, hurl]]
        rw [ih mgrs hctor' k]
        constructor
        · rintro (h | ⟨q, hq, hx⟩)
          · exact Or.inl h
          · exact Or.inr ⟨q, List.mem_cons_of_mem _ hq, hx⟩
        · rintro (h | ⟨q, hq, hid, hu⟩)
          · exact Or.inl h
          · rcases List.mem_cons.mp hq with rfl | hq'
            · exact absurd hurl hu
            · exact Or.inr ⟨q, hq', hid, hu⟩
      · cases hlk : mgrs.lookup pr.prom.id with
        | some q =>
            rw [show installManagers ctorOk mgrs (pr :: rest)
                  = installManagers ctorOk mgrs rest by
                simp [installManagers, hurl, hlk]]
            rw [ih mgrs hctor' k]
            constructor
            · rintro (h | ⟨r, hr, hx⟩)
              · exact Or.inl h
              · exact Or.inr ⟨r, List.mem_cons_of_mem _ hr, hx⟩
            · rintro (h | ⟨r, hr, hid, hu⟩)
              · exact Or.inl h
              · rcases List.mem_cons.mp hr with rfl | hr'
                · subst hid
                  exact Or.inl ⟨q, mem_of_lookup_eq_some hlk⟩
                · exact Or.inr ⟨r, hr', hid, hu⟩
        | none =>
            have hco : ctorOk pr.prom = true := hctor pr (List.mem_cons_self _ _)
            rw [show installManagers ctorOk mgrs (pr :: rest)
                  = installManagers ctorOk (mgrs ++ [(pr.prom.id, pr.prom)]) rest by
                simp [installManagers, hurl, hlk, hco]]
            rw [ih (mgrs ++ [(pr.prom.id, pr.prom)]) hctor' k]
            constructor
            · rintro (⟨p, hp⟩ | ⟨r, hr, hx⟩)
              · rcases List.mem_append.mp hp with h | h
                · exact Or.inl ⟨p, h⟩
                · have heq : (k, p) = (pr.prom.id, pr.prom) := by simpa using h
                  have hk : k = pr.prom.id := congrArg Prod.fst heq
                  exact Or.inr ⟨pr, List.mem_cons_self _ _, hk.symm, hurl⟩
              · exact Or.inr ⟨r, List.mem_cons_of_mem _ hr, hx⟩
            · rintro (⟨p, hp⟩ | ⟨r, hr, hid, hu⟩)
              · exact Or.inl ⟨p, List.mem_append.mpr (Or.inl hp)⟩
              · rcases List.mem_cons.mp hr with rfl | hr'
                · subst hid
                  exact Or.inl ⟨r.prom, List.mem_append.mpr (Or.inr (by simp))⟩
                · exact Or.inr ⟨r, hr', hid, hu⟩

/-- C3: on a reconcile in which every needed `NewManager` construction
succeeds (`ctorOk` everywhere true on the incoming groups), starting from a
reachable evaluator map (keys equal their manager's prom id, and every
live manager has a non-empty URL): after `Reloader.Update`, (1) the map
keys are exactly the prom ids of incoming groups with a non-empty URL, and
(2) a live evaluator is removed by the delete sweep iff no incoming group
matches both its id and its URL.  ("A group with empty URL never produces
an evaluator" is the right-to-left reading of (1).) -/
theorem reconcile_converges (ctorOk : Prom → Bool) (mgrs : List (Int × Prom))
    (promRules : List PromRules)
    (hkey : ∀ e ∈ mgrs, e.1 = e.2.id)
    (hurl : ∀ e ∈ mgrs, e.2.url ≠ "")
    (hctor : ∀ pr ∈ promRules, ctorOk pr.prom = true) :
    (∀ k : Int,
      (∃ p, (k, p) ∈ reloaderUpdate ctorOk mgrs promRules) ↔
        ∃ pr ∈ promRules, pr.prom.id = k ∧ pr.prom.url ≠ "") ∧
    (∀ e ∈ mgrs,
      (e ∉ sweepManagers mgrs promRules ↔
        ¬ ∃ pr ∈ promRules, pr.prom.id = e.2.id ∧ pr.prom.url = e.2.url)) := by
  have hkept : ∀ e ∈ mgrs,
      (managerKept e.2 promRules = true ↔
        ∃ pr ∈ promRules, pr.prom.id = e.2.id ∧ pr.prom.url = e.2.url) := by
    intro e he
    unfold managerKept
    rw [List.any_eq_true]
    constructor
    · rintro ⟨pr, hpr, hb⟩
      simp only [Bool.and_eq_true, beq_iff_eq, bne_iff_ne] at hb
      exact ⟨pr, hpr, hb.1.1.symm, hb.1.2.symm⟩
    · rintro ⟨pr, hpr, hid, hu⟩
      refine ⟨pr, hpr, ?_⟩
      simp only [Bool.and_eq_true, beq_iff_eq, bne_iff_ne]
      exact ⟨⟨hid.symm, hu.symm⟩, by rw [hu]; exact hurl e he⟩
  constructor
  · intro k
    rw [reloaderUpdate,
      installManagers_hasKey ctorOk promRules (sweepManagers mgrs promRules) hctor k]
    refine or_iff_right_of_imp ?_
    rintro ⟨p, hp⟩
    obtain ⟨hmem, hkeep⟩ := List.mem_filter.mp hp
    obtain ⟨pr, hpr, hid, hu⟩ := (hkept (k, p) hmem).mp hkeep
    refine ⟨pr, hpr, ?_, ?_⟩
    · rw [hid, ← hkey (k, p) hmem]
    · rw [hu]; exact hurl (k, p) hmem
  · intro e he
    apply not_congr
    constructor
    · intro hmem
      exact (hkept e he).mp (List.mem_filter.mp hmem).2
    · intro hx
      exact List.mem_filter.mpr ⟨he, (hkept e he).mpr hx⟩

/-- Witness for C3: one live manager for source 1, one incoming group for
source 2 with a non-empty URL. -/
theorem reconcile_converges_witness :
    ((∃ p, ((2 : Int), p) ∈ reloaderUpdate demoCtorOk [(1, demoProm1)] [demoGroup2]) ↔
      ∃ pr ∈ [demoGroup2], pr.prom.id = 2 ∧ pr.prom.url ≠ "") ∧
    ((1, demoProm1) ∉ sweepManagers [(1, demoProm1)] [demoGroup2] ↔
      ¬ ∃ pr ∈ [demoGroup2], pr.prom.id = demoProm1.id ∧ pr.prom.url = demoProm1.url) :=
  ⟨(reconcile_converges demoCtorOk [(1, demoProm1)] [demoGroup2]
      (by decide) (by decide) (by decide)).1 2,
   (reconcile_converges demoCtorOk [(1, demoProm1)] [demoGroup2]
      (by decide) (by decide) (by decide)).2 (1, demoProm1) (by simp)⟩

/-! ## C7 — reload loop counters -/

/-- C7 counterexample: a run whose initial immediate `Update()` fails and
which is cancelled before the first timer tick has executed one loop
iteration, yet incremented neither `reload_success_total` nor
`reload_errors_total` — the initial update's error is only logged
(`engine/reloader.go` lines 90–93), refuting "every iteration of the loop
(including the initial immediate one) increments exactly one of" the two
counters. -/
theorem loop_initial_no_counter_counterexample :
    reloaderLoop false [] =
      { updateCalls := 1, reloadSuccess := 0, reloadErrors := 0 } := by
  rfl

/-- C7 amended: `Reloader.Loop` runs `Update()` once immediately and then
once per `reload_interval` tick until cancelled; each tick-driven iteration
increments exactly one of the two reload counters (success or error), while
the initial immediate update increments neither — its result is ignored by
the counters. -/
theorem loop_counts_tick_iterations (initialOk : Bool) (ticks : List Bool) :
    reloaderLoop initialOk ticks =
      { updateCalls := 1 + ticks.length,
        reloadSuccess := ticks.count true,
        reloadErrors := ticks.count false } := by
  have h : ∀ (l : List Bool) (t : LoopTrace),
      l.foldl
        (fun t ok =>
          if ok then
            { t with updateCalls := t.updateCalls + 1,
                     reloadSuccess := t.reloadSuccess + 1 }
          else
            { t with updateCalls := t.updateCalls + 1,
                     reloadErrors := t.reloadErrors + 1 })
        t
      = { updateCalls := t.updateCalls + l.length,
          reloadSuccess := t.reloadSuccess + l.count true,
          reloadErrors := t.reloadErrors + l.count false } := by
    intro l
    induction l with
    | nil => intro t; simp
    | cons a l ih =>
        intro t
        cases a with
        | true =>
            rw [List.foldl_cons, ih]
            simp [List.count_cons, LoopTrace.mk.injEq]
            omega
        | false =>
            rw [List.foldl_cons, ih]
            simp [List.count_cons, LoopTrace.mk.injEq]
            omega
  rw [reloaderLoop, h]
  simp [LoopTrace.mk.injEq]

/-! ## C6 — notification retry accounting -/

/-- A hit of `firstSuccessFrom` is in range, responds 200, and every
earlier attempt in range does not. -/
theorem firstSuccessFrom_bounds (respond : Nat → AttemptResult) :
    ∀ (n i j : Nat), firstSuccessFrom respond i n = some j →
      i ≤ j ∧ j < i + n ∧ respond j = AttemptResult.status 200 ∧
      ∀ l, i ≤ l → l < j → respond l ≠ AttemptResult.status 200 := by
  intro n
  induction n with
  | zero => intro i j h; simp [firstSuccessFrom] at h
  | succ n ih =>
      intro i j h
      rw [firstSuccessFrom] at h
      by_cases hc : respond i = AttemptResult.status 200
      · rw [if_pos hc] at h
        have hij : i = j := by injection h
        subst hij
        exact ⟨le_refl _, by omega, hc, fun l hl1 hl2 => by omega⟩
      · rw [if_neg hc] at h
        obtain ⟨h1, h2, h3, h4⟩ := ih (i + 1) j h
        refine ⟨by omega, by omega, h3, ?_⟩
        intro l hl1 hl2
        by_cases hli : l = i
        · subst hli; exact hc
        · exact h4 l (by omega) hl2

/-- With no successful attempt available, the loop makes all `n` attempts,
sends nothing and counts one error per attempt. -/
theorem notifyFrom_of_none (respond : Nat → AttemptResult) :
    ∀ (n i : Nat), firstSuccessFrom respond i n = none →
      notifyFrom respond i n = ⟨0, n, n⟩ := by
  intro n
  induction n with
  | zero => intro i _; rfl
  | succ n ih =>
      intro i h
      rw [firstSuccessFrom] at h
      rw [notifyFrom]
      by_cases hc : respond i = AttemptResult.status 200
      · rw [if_pos hc] at h; exact Option.noConfusion h
      · rw [if_neg hc] at h
        rw [if_neg hc]
        simp [ih (i + 1) h]

/-- With the first success at attempt `j`, the loop stops there: one send,
one error per failed attempt before `j`, `j − i + 1` attempts in total. -/
theorem notifyFrom_of_some (respond : Nat → AttemptResult) :
    ∀ (n i j : Nat), firstSuccessFrom respond i n = some j →
      notifyFrom respond i n = ⟨1, j - i, j - i + 1⟩ := by
  intro n
  induction n with
  | zero => intro i j h; simp [firstSuccessFrom] at h
  | succ n ih =>
      intro i j h
      rw [firstSuccessFrom] at h
      rw [notifyFrom]
      by_cases hc : respond i = AttemptResult.status 200
      · rw [if_pos hc] at h
        have hij : i = j := by injection h
        subst hij
        rw [if_pos hc]
        simp
      · rw [if_neg hc] at h
        have hij : i + 1 ≤ j := (firstSuccessFrom_bounds respond n (i + 1) j h).1
        rw [if_neg hc]
        simp [ih (i + 1) j h, NotifyMetrics.mk.injEq]
        omega

/-- C6: one `sendNotification` call makes at most `notify_retries`
sequential attempts; every attempt is counted exactly once (a success in
`notifications_sent_total`, a transport error or non-200 response in
`notify_errors_total`); the loop stops at the first HTTP 200, sending
exactly once; if no attempt returns 200 every attempt errors and nothing
is sent — in particular, with `notify_retries = 2` and two 500 responses,
`notify_errors_total` gains 2 and `notifications_sent_total` is
unchanged. -/
theorem sendNotification_spec (retries : Nat) (respond : Nat → AttemptResult) :
    (sendNotification retries respond).attempts ≤ retries ∧
    (sendNotification retries respond).sent + (sendNotification retries respond).errors
      = (sendNotification retries respond).attempts ∧
    (∀ j, firstSuccessFrom respond 1 retries = some j →
      sendNotification retries respond = ⟨1, j - 1, j⟩ ∧
      respond j = AttemptResult.status 200 ∧ 1 ≤ j ∧ j ≤ retries ∧
      ∀ l, 1 ≤ l → l < j → respond l ≠ AttemptResult.status 200) ∧
    (firstSuccessFrom respond 1 retries = none →
      sendNotification retries respond = ⟨0, retries, retries⟩) ∧
    sendNotification 2 (fun _ => AttemptResult.status 500) =
      { sent := 0, errors := 2, attempts := 2 } := by
  cases h : firstSuccessFrom respond 1 retries with
  | some j =>
      obtain ⟨hb1, hb2, hb3, hb4⟩ := firstSuccessFrom_bounds respond retries 1 j h
      have he : sendNotification retries respond = ⟨1, j - 1, j - 1 + 1⟩ :=
        notifyFrom_of_some respond retries 1 j h
      have hej : sendNotification retries respond = ⟨1, j - 1, j⟩ := by
        rw [he]; simp [NotifyMetrics.mk.injEq]; omega
      refine ⟨?_, ?_, ?_, ?_, by decide⟩
      · rw [hej]
        show j ≤ retries
        omega
      · rw [hej]
        show 1 + (j - 1) = j
        omega
      · intro j' hj'
        have hjj : j = j' := by injection hj'
        subst hjj
        exact ⟨hej, hb3, hb1, by omega, hb4⟩
      · intro hn; exact Option.noConfusion hn
  | none =>
      have he : sendNotification retries respond = ⟨0, retries, retries⟩ :=
        notifyFrom_of_none respond retries 1 h
      refine ⟨?_, ?_, ?_, fun _ => he, by decide⟩
      · rw [he]
      · rw [he]
        show 0 + retries = retries
        omega
      · intro j hj; exact Option.noConfusion hj

/-- Witness for C6: the retry-exhaustion scenario of the claim,
`notify_retries = 2` with two 500 responses. -/
theorem sendNotification_spec_witness :
    firstSuccessFrom (fun _ => AttemptResult.status 500) 1 2 = none ∧
    sendNotification 2 (fun _ => AttemptResult.status 500) =
      { sent := 0, errors := 2, attempts := 2 } :=
  ⟨by decide,
   (sendNotification_spec 2 (fun _ => AttemptResult.status 500)).2.2.2.1 (by decide)⟩

/-! ## C8 / C10 — `Storage.ListVersions` -/

/-- Entries at or past the truncation index are never kept. -/
theorem filter_keep_past_limit {limit : Int} (hlim : 0 < limit) :
    ∀ (es : List DirEntry) (i : Nat), limit ≤ (i : Int) →
      (List.enumFrom i es).filter (fun p => lvKeep limit p.1 p.2) = [] := by
  intro es
  induction es with
  | nil => intro i _; rfl
  | cons e rest ih =>
      intro i hi
      rw [List.enumFrom_cons, List.filter_cons]
      have hk : lvKeep limit i e = false := by
        unfold lvKeep
        have h1 : decide (limit ≤ 0) = false := by simp; omega
        have h2 : decide ((i : Int) < limit) = false := by simp; omega
        rw [h1, h2]
        rfl
      rw [hk]
      simp only [Bool.false_eq_true, if_false]
      exact ih (i + 1) (by push_cast; omega)

/-- The collection loop of `ListVersions` agrees with its filter/map
description: it returns one record per kept entry, in listing order, with
version `i + 1` for the entry at index `i`. -/
theorem lvLoop_eq_spec (hashFn : List Nat → List Char) (promId : Int)
    (historyDir : List Char) (limit : Int) :
    ∀ (es : List DirEntry) (i : Nat),
      lvLoop hashFn promId historyDir limit i es =
        ((List.enumFrom i es).filter (fun p => lvKeep limit p.1 p.2)).map
          (fun p => lvRecord hashFn promId historyDir p.1 p.2) := by
  intro es
  induction es with
  | nil => intro i; rfl
  | cons e rest ih =>
      intro i
      rw [lvLoop, List.enumFrom_cons, List.filter_cons]
      by_cases hbr : (i : Int) ≥ limit ∧ limit > 0
      · rw [if_pos hbr]
        have hk : lvKeep limit i e = false := by
          unfold lvKeep
          have h1 : decide (limit ≤ 0) = false := by simp; omega
          have h2 : decide ((i : Int) < limit) = false := by simp; omega
          rw [h1, h2]
          rfl
        rw [hk]
        simp only [Bool.false_eq_true, if_false]
        rw [filter_keep_past_limit hbr.2 rest (i + 1) (by push_cast; omega)]
        rfl
      · rw [if_neg hbr]
        have hidx : (decide (limit ≤ 0) || decide ((i : Int) < limit)) = true := by
          rcases not_and_or.mp hbr with h | h
          · simp only [Bool.or_eq_true, decide_eq_true_eq]
            right
            omega
          · simp only [Bool.or_eq_true, decide_eq_true_eq]
            left
            omega
        by_cases hdir : e.isDir
        · rw [if_pos hdir]
          have hk : lvKeep limit i e = false := by
            unfold lvKeep
            rw [hidx, hdir]
            rfl
          rw [hk]
          simp only [Bool.false_eq_true, if_false]
          exact ih (i + 1)
        · rw [if_neg hdir]
          cases hc : e.content with
          | none =>
              have hk : lvKeep limit i e = false := by
                unfold lvKeep
                rw [hidx, hc]
                simp [hdir]
              rw [hk]
              simp only [Bool.false_eq_true, if_false]
              exact ih (i + 1)
          | some bytes =>
              have hk : lvKeep limit i e = true := by
                unfold lvKeep
                rw [hidx, hc]
                simp [hdir]
              rw [hk]
              simp only [if_true]
              rw [List.map_cons, ih (i + 1)]
              congr 1
              unfold lvRecord
              rw [hc]
              rfl

/-- The sort of `ListVersions` is a permutation of the directory listing. -/
theorem sortEntries_perm (es : List DirEntry) : (sortEntries es).Perm es :=
  List.mergeSort_perm es _

/-- The sort of `ListVersions` orders entries by descending modification
time. -/
theorem sortEntries_sorted (es : List DirEntry) :
    List.Pairwise (fun a b : DirEntry => b.modTime ≤ a.modTime) (sortEntries es) := by
  unfold sortEntries
  have h := @List.sorted_mergeSort DirEntry
    (fun a b : DirEntry => decide (b.modTime ≤ a.modTime))
    (fun a b c h1 h2 => by
      simp only [decide_eq_true_eq] at *
      omega)
    (fun a b => by
      simp only [Bool.or_eq_true, decide_eq_true_eq]
      exact le_total _ _)
    es
  exact h.imp (fun hab => of_decide_eq_true hab)

/-- With a positive limit the loop keeps at most `limit − i` records. -/
theorem lvLoop_length_le (hashFn : List Nat → List Char) (promId : Int)
    (historyDir : List Char) {limit : Int} (hlim : 0 < limit) :
    ∀ (es : List DirEntry) (i : Nat),
      (lvLoop hashFn promId historyDir limit i es).length ≤ limit.toNat - i := by
  intro es
  induction es with
  | nil => intro i; simp [lvLoop]
  | cons e rest ih =>
      intro i
      rw [lvLoop]
      by_cases hbr : (i : Int) ≥ limit ∧ limit > 0
      · rw [if_pos hbr]; simp
      · rw [if_neg hbr]
        have hi : i < limit.toNat := by
          rcases not_and_or.mp hbr with h | h
          · omega
          · omega
        by_cases hdir : e.isDir
        · rw [if_pos hdir]
          exact le_trans (ih (i + 1)) (by omega)
        · rw [if_neg hdir]
          cases hc : e.content with
          | none =>
              simp only [hc]
              exact le_trans (ih (i + 1)) (by omega)
          | some bytes =>
              simp only [hc, List.length_cons]
              have := ih (i + 1)
              omega

/-- With `limit ≤ 0` the filter keeps exactly the readable non-directory
entries. -/
theorem filter_keep_all {limit : Int} (hlim : limit ≤ 0) :
    ∀ (es : List DirEntry) (i : Nat),
      ((List.enumFrom i es).filter (fun p => lvKeep limit p.1 p.2)).length
        = es.countP (fun e => !e.isDir && e.content.isSome) := by
  intro es
  induction es with
  | nil => intro i; rfl
  | cons e rest ih =>
      intro i
      rw [List.enumFrom_cons, List.filter_cons, List.countP_cons]
      have hidx : lvKeep limit i e = (!e.isDir && e.content.isSome) := by
        unfold lvKeep
        have h1 : decide (limit ≤ 0) = true := by simpa using hlim
        rw [h1]
        simp
      rw [hidx]
      by_cases hk : (!e.isDir && e.content.isSome) = true
      · rw [if_pos hk, if_pos hk, List.length_cons, ih (i + 1)]
      · rw [if_neg hk, if_neg hk, ih (i + 1)]
        omega

/-- C8 amended: `ListVersions` fails with "history is disabled" when
history is off; otherwise (for an existing directory) it sorts the listing
by modification time descending, scans at most the first `limit` entries
when `limit > 0` (all of them when `limit ≤ 0`), skips subdirectories and
unreadable files, and assigns each returned record **one plus the index of
its entry in the sorted listing** — so skipped entries leave gaps and the
versions are `1..N` only when nothing before the last returned entry was
skipped; at most `limit` records are returned when `limit > 0`, and with
`limit ≤ 0` there is one record per readable non-directory entry. -/
theorem listVersions_spec (hashFn : List Nat → List Char) (base : List Char)
    (promId : Int) (dir : ReadDirResult) (es : List DirEntry) (limit : Int) :
    listVersions hashFn false base promId dir limit =
      .error "history is disabled" ∧
    listVersions hashFn true base promId (.entries es) limit =
      .ok (lvSpec hashFn promId (getPromHistoryDir base promId) limit (sortEntries es)) ∧
    (sortEntries es).Perm es ∧
    List.Pairwise (fun a b : DirEntry => b.modTime ≤ a.modTime) (sortEntries es) ∧
    (0 < limit →
      ((lvSpec hashFn promId (getPromHistoryDir base promId) limit
          (sortEntries es)).length : Int) ≤ limit) ∧
    (limit ≤ 0 →
      (lvSpec hashFn promId (getPromHistoryDir base promId) limit
          (sortEntries es)).length
        = es.countP (fun e => !e.isDir && e.content.isSome)) := by
  have hspec : lvLoop hashFn promId (getPromHistoryDir base promId) limit 0 (sortEntries es)
      = lvSpec hashFn promId (getPromHistoryDir base promId) limit (sortEntries es) :=
    lvLoop_eq_spec hashFn promId (getPromHistoryDir base promId) limit (sortEntries es) 0
  refine ⟨rfl, ?_, sortEntries_perm es, sortEntries_sorted es, ?_, ?_⟩
  · rw [show listVersions hashFn true base promId (.entries es) limit
        = .ok (lvLoop hashFn promId (getPromHistoryDir base promId) limit 0
            (sortEntries es)) from rfl, hspec]
  · intro hlim
    have hlen := lvLoop_length_le hashFn promId (getPromHistoryDir base promId)
      hlim (sortEntries es) 0
    rw [hspec] at hlen
    omega
  · intro hlim
    have hcount := filter_keep_all hlim (sortEntries es) 0
    have hmap : (lvSpec hashFn promId (getPromHistoryDir base promId) limit
        (sortEntries es)).length
        = ((List.enumFrom 0 (sortEntries es)).filter
            (fun p => lvKeep limit p.1 p.2)).length := by
      unfold lvSpec
      rw [List.length_map]
    rw [hmap, hcount]
    exact (sortEntries_perm es).countP_eq _

/-- Witness for the amended C8: disabled storage errors out, and the
concrete two-entry listing under `limit = 0` keeps exactly its one readable
file. -/
theorem listVersions_spec_witness :
    (0 : Int) ≤ 0 ∧
    (lvSpec demoHash 7 (getPromHistoryDir "b".toList 7) 0
        (sortEntries demoEntries)).length
      = demoEntries.countP (fun e => !e.isDir && e.content.isSome) :=
  ⟨by decide,
   (listVersions_spec demoHash "b".toList 7 .notExist demoEntries 0).2.2.2.2.2 (by decide)⟩

/-- C8 counterexample: with history on, `limit = 0` and a listing whose
newest entry is a subdirectory, the single returned record carries
`version = 2` (one plus its index in the sorted listing), not `version = 1`
— the skipped directory leaves a gap, refuting "the k-th returned record
has version k". -/
theorem listVersions_ordinal_counterexample :
    listVersions demoHash true "b".toList 7 (.entries demoEntries) 0 =
      .ok [{ version := 2, promId := 7, createdAt := 5,
             filePath := "b/prom_7/history/a.yml".toList, hash := [] }] := by
  have hs : sortEntries demoEntries = demoEntries := by
    simp [sortEntries, demoEntries, List.mergeSort]
  rw [show listVersions demoHash true "b".toList 7 (.entries demoEntries) 0
      = .ok (lvLoop demoHash 7 (getPromHistoryDir "b".toList 7) 0 0
          (sortEntries demoEntries)) from rfl, hs]
  rfl

/-- C10: with history enabled but the per-source history directory missing
on disk, `ListVersions` returns an empty list and no error
(`rule/storage.go` lines 77–83: the `os.IsNotExist` branch). -/
theorem listVersions_missing_dir_ok (hashFn : List Nat → List Char)
    (base : List Char) (promId limit : Int) :
    listVersions hashFn true base promId .notExist limit = .ok [] := rfl

/-! ## C9 — the spurious `MkdirAll` in `Storage.SaveRule` -/

/-- The Go slice expression computes the path minus its final byte. -/
theorem saveRuleMkdirArg_eq_dropLast (p : List Char) (hp : p ≠ []) :
    saveRuleMkdirArg p = p.dropLast := by
  have h1 : 0 < p.length := List.length_pos.mpr hp
  unfold saveRuleMkdirArg
  rw [List.length_drop, List.dropLast_eq_take]
  congr 1
  omega

/-- Dropping the last character of `parent/fname` only shortens the file
name when the file name is non-empty. -/
theorem dropLast_append_file (a : List Char) (f : List Char) (hf : f ≠ []) :
    (a ++ '/' :: f).dropLast = a ++ '/' :: f.dropLast := by
  rw [List.dropLast_append]
  cases f with
  | nil => exact absurd rfl hf
  | cons x xs => simp [List.dropLast_cons₂]

/-- The directory part of `parent/fname` is `parent` when the file name
contains no separator. -/
theorem dirname_append_file (a f : List Char) (hf : ∀ c ∈ f, c ≠ '/') :
    dirname (a ++ '/' :: f) = a := by
  unfold dirname
  rw [List.reverse_append, List.reverse_cons, List.append_assoc]
  have h1 : List.dropWhile (fun c => c ≠ '/') f.reverse = [] := by
    rw [List.dropWhile_eq_nil_iff]
    intro x hx
    simpa using hf x (List.mem_reverse.mp hx)
  rw [List.dropWhile_append, h1]
  simp [List.dropWhile_cons]

/-- The shared content of `saveRuleMkdirClaim` for a path already split
into `parent ++ "/" ++ fname`. -/
theorem split_path_facts (parent fname : List Char) (hf1 : fname ≠ [])
    (hfs : ∀ c ∈ fname, c ≠ '/') :
    saveRuleMkdirArg (parent ++ '/' :: fname) = (parent ++ '/' :: fname).dropLast ∧
    saveRuleMkdirArg (parent ++ '/' :: fname) = parent ++ '/' :: fname.dropLast ∧
    dirname (parent ++ '/' :: fname) = parent ∧
    saveRuleMkdirArg (parent ++ '/' :: fname) ≠ parent ∧
    saveRuleMkdirArg (parent ++ '/' :: fname) ≠ parent ++ '/' :: fname ∧
    mkdirAllCreates (saveRuleMkdirArg (parent ++ '/' :: fname))
      (saveRuleMkdirArg (parent ++ '/' :: fname)) = true ∧
    mkdirAllCreates (saveRuleMkdirArg (parent ++ '/' :: fname)) parent = true ∧
    writeFileOk (mkdirAllCreates (saveRuleMkdirArg (parent ++ '/' :: fname)))
      (parent ++ '/' :: fname) = true := by
  have hne : parent ++ '/' :: fname ≠ [] := by simp
  have hdl : saveRuleMkdirArg (parent ++ '/' :: fname) = (parent ++ '/' :: fname).dropLast :=
    saveRuleMkdirArg_eq_dropLast _ hne
  have hdl2 : saveRuleMkdirArg (parent ++ '/' :: fname) = parent ++ '/' :: fname.dropLast :=
    hdl.trans (dropLast_append_file parent fname hf1)
  have hdir : dirname (parent ++ '/' :: fname) = parent := dirname_append_file parent fname hfs
  have hpref : (parent ++ ['/']).isPrefixOf (parent ++ '/' :: fname.dropLast) = true := by
    rw [List.isPrefixOf_iff_prefix]
    rw [show parent ++ '/' :: fname.dropLast = (parent ++ ['/']) ++ fname.dropLast by simp]
    exact List.prefix_append _ _
  have hcp : mkdirAllCreates (saveRuleMkdirArg (parent ++ '/' :: fname)) parent = true := by
    unfold mkdirAllCreates
    rw [hdl2, hpref]
    simp
  refine ⟨hdl, hdl2, hdir, ?_, ?_, ?_, hcp, ?_⟩
  · intro h
    rw [hdl2] at h
    have := congrArg List.length h
    simp at this
  · intro h
    rw [hdl2] at h
    have := congrArg List.length h
    simp [List.length_dropLast] at this
    have : fname.length - 1 = fname.length := this
    have hpos : 0 < fname.length := List.length_pos.mpr hf1
    omega
  · unfold mkdirAllCreates
    simp
  · unfold writeFileOk
    rw [hdir]
    exact hcp

/-- `{base}/{b}/{c}` splits as `{base}/{b}` plus the file name. -/
theorem pathJoin_three (a b c : List Char) :
    pathJoin [a, b, c] = pathJoin [a, b] ++ '/' :: c := by
  simp [pathJoin, List.append_assoc]

/-- `{base}/{b}/{c}/{d}` splits as `{base}/{b}/{c}` plus the file name. -/
theorem pathJoin_four (a b c d : List Char) :
    pathJoin [a, b, c, d] = pathJoin [a, b, c] ++ '/' :: d := by
  simp [pathJoin, List.append_assoc]

/-- C9: on every `SaveRule` call (either history mode, any prom id, any
timestamp without a path separator, any non-empty clean base directory),
the `os.MkdirAll` argument is the target path with only its final
character removed — a spurious directory distinct from both the target
file's true parent and the target itself; the true parent comes to exist
only as a slash-prefix of that spurious path, and the `os.WriteFile` of
the target then succeeds. -/
theorem saveRule_spurious_mkdir (hist : Bool) (base ts : List Char) (promID : Int)
    (_hbase : base ≠ []) (hts : ∀ c ∈ ts, c ≠ '/') :
    saveRuleMkdirClaim hist base ts promID := by
  cases hist with
  | false =>
      have hpath : saveRulePath false base promID ts
          = pathJoin [base, promDirName promID] ++ '/' :: "current.yml".toList := by
        rw [show saveRulePath false base promID ts = getCurrentPath base promID from rfl]
        exact pathJoin_three _ _ _
      obtain ⟨h1, h2, h3, h4, h5, h6, h7, h8⟩ :=
        split_path_facts (pathJoin [base, promDirName promID]) "current.yml".toList
          (by decide) (by decide)
      refine ⟨pathJoin [base, promDirName promID], "current.yml".toList, hpath,
        by decide, ?_, ?_, ?_, ?_, ?_, ?_, ?_, ?_⟩ <;> rw [hpath]
      · exact h1
      · exact h2
      · exact h3
      · exact h4
      · exact h5
      · exact h6
      · exact h7
      · exact h8
  | true =>
      have hpath : saveRulePath true base promID ts
          = pathJoin [base, promDirName promID, "history".toList] ++ '/'
              :: ("rule_".toList ++ ts ++ ".yml".toList) := by
        rw [show saveRulePath true base promID ts = getHistoryPath base promID ts from rfl]
        exact pathJoin_four _ _ _ _
      have hfs : ∀ c ∈ "rule_".toList ++ ts ++ ".yml".toList, c ≠ '/' := by
        intro c hc
        rcases List.mem_append.mp hc with h | h
        · rcases List.mem_append.mp h with h' | h'
          · exact (by decide : ∀ x ∈ "rule_".toList, x ≠ '/') c h'
          · exact hts c h'
        · exact (by decide : ∀ x ∈ ".yml".toList, x ≠ '/') c h
      have hf1 : "rule_".toList ++ ts ++ ".yml".toList ≠ [] := by simp
      obtain ⟨h1, h2, h3, h4, h5, h6, h7, h8⟩ :=
        split_path_facts (pathJoin [base, promDirName promID, "history".toList])
          ("rule_".toList ++ ts ++ ".yml".toList) hf1 hfs
      refine ⟨pathJoin [base, promDirName promID, "history".toList],
        "rule_".toList ++ ts ++ ".yml".toList, hpath, hf1, ?_, ?_, ?_, ?_, ?_, ?_, ?_, ?_⟩
        <;> rw [hpath]
      · exact h1
      · exact h2
      · exact h3
      · exact h4
      · exact h5
      · exact h6
      · exact h7
      · exact h8

/-- Witness for C9 at a concrete base directory, prom id and timestamp. -/
theorem saveRule_spurious_mkdir_witness :
    ("/data".toList ≠ ([] : List Char)) ∧
    (∀ c ∈ "20250101_000000".toList, c ≠ '/') ∧
    saveRuleMkdirClaim true "/data".toList "20250101_000000".toList 7 :=
  ⟨by decide, by decide,
   saveRule_spurious_mkdir true "/data".toList "20250101_000000".toList 7
     (by decide) (by decide)⟩

end AlertEngine
